import Mathlib

/-
Verification of the threshold key-lifecycle subsystem of a key-management
service: Shamir-style secret splitting and reconstruction, the fault-tolerant
share-retrieval coordinator, the key-version rotation state machine, the
signing orchestrator, and the public-key cache.

Conventions of the embedding:
* the encrypted secret store is an oracle argument (a lookup function or an
  `Except`-valued result) rather than a global;
* timestamps are natural numbers counted in days (the only time arithmetic in
  the source is "now plus 30 days");
* cryptographic primitives (tweetnacl) are abstract function arguments; the
  embedding only tracks which of them are called and how their results flow;
* JavaScript exceptions become `Except`/`Option` results.
-/

namespace KMS

/-!  SecretSplitter.

The splitting algorithm itself is the external `secrets.js-grempe` library
(`secrets.share` / `secrets.combine` called from
`src/services/mpc/share-manager.service.ts`); the library is not part of this
repository's sources, so this section is modelled from the spec.
-/

/-- Modelled from the spec: the finite field of the secret-sharing scheme.
The spec fixes only that shares are evaluations of a random polynomial over a
finite field at distinct nonzero points, with at most 255 shares; we use the
prime field with 257 elements, the smallest prime field containing every byte
value together with 255 distinct nonzero share indices. -/
abbrev GF : Type := ZMod 257

instance : Fact (Nat.Prime 257) := ⟨by norm_num⟩

/-- Modelled from the spec: evaluation at `x` of the sharing polynomial whose
constant term is the secret byte `s` and whose higher coefficients are the
random coefficients `coeffs` (a threshold-`t` scheme uses `t - 1` of them). -/
def polyEval (s : GF) (coeffs : List GF) (x : GF) : GF :=
  s + x * coeffs.foldr (fun a acc => a + x * acc) 0

/-- Modelled from the spec: the value of one share of a multi-byte secret is
the list of per-byte polynomial evaluations at the share index `x`
(`coeffs` holds one random-coefficient list per byte). -/
def shareValue (secret : List GF) (coeffs : List (List GF)) (x : GF) : List GF :=
  (secret.zip coeffs).map fun p => polyEval p.1 p.2 x

/-- Modelled from the spec: `split` evaluates the sharing polynomials at the
`n` distinct nonzero field elements `1, …, n` and returns the list of
`(index, evaluation)` pairs. -/
def split (secret : List GF) (coeffs : List (List GF)) (n : ℕ) :
    List (GF × List GF) :=
  (List.range n).map fun i =>
    (((i + 1 : ℕ) : GF), shareValue secret coeffs ((i + 1 : ℕ) : GF))

inductive SplitError where
  | invalidThreshold : SplitError
deriving DecidableEq

/-- Modelled from the spec: `split` fails with `InvalidThreshold` unless
`2 ≤ t ≤ n ≤ 255`, and otherwise produces the `n` shares. -/
def splitChecked (secret : List GF) (coeffs : List (List GF)) (n t : ℕ) :
    Except SplitError (List (GF × List GF)) :=
  if 2 ≤ t ∧ t ≤ n ∧ n ≤ 255 then Except.ok (split secret coeffs n)
  else Except.error SplitError.invalidThreshold

/-- Modelled from the spec: `combine` performs Lagrange interpolation at
`x = 0`, componentwise on a set of `(index, evaluation-vector)` pairs.
`len` is the byte length of the secret (64 for Ed25519 signing keys). -/
def combine (shares : Finset (GF × List GF)) (len : ℕ) : List GF :=
  (List.range len).map fun k =>
    ∑ p ∈ shares, p.2.getD k 0 * ∏ q ∈ shares.erase p, q.1 / (q.1 - p.1)

/-- Lagrange interpolation at zero of the value function `f` on the node set
`I`; the single-byte form of `combine`, used to state the core recovery
lemma. -/
def recover (I : Finset GF) (f : GF → GF) : GF :=
  ∑ x ∈ I, f x * ∏ y ∈ I.erase x, y / (y - x)

/-- Proof-side polynomial with coefficient list `l` (lowest degree first). -/
noncomputable def coeffsPoly (l : List GF) : Polynomial GF :=
  l.foldr (fun a p => Polynomial.C a + Polynomial.X * p) 0

/-- Proof-side sharing polynomial: constant term `s`, then the random
coefficients `l`. -/
noncomputable def sharePoly (s : GF) (l : List GF) : Polynomial GF :=
  Polynomial.C s + Polynomial.X * coeffsPoly l

theorem eval_coeffsPoly (l : List GF) (x : GF) :
    (coeffsPoly l).eval x = l.foldr (fun a acc => a + x * acc) 0 := by
  induction l with
  | nil => simp [coeffsPoly]
  | cons a l ih =>
    show (Polynomial.C a + Polynomial.X * coeffsPoly l).eval x = _
    simp [ih]

theorem eval_sharePoly (s : GF) (l : List GF) (x : GF) :
    (sharePoly s l).eval x = polyEval s l x := by
  simp [sharePoly, polyEval, eval_coeffsPoly]

theorem degree_coeffsPoly (l : List GF) :
    (coeffsPoly l).degree < (l.length : WithBot ℕ) := by
  induction l with
  | nil => simp [coeffsPoly]
  | cons a l ih =>
    show (Polynomial.C a + Polynomial.X * coeffsPoly l).degree < _
    refine lt_of_le_of_lt (Polynomial.degree_add_le _ _) (max_lt ?_ ?_)
    · exact lt_of_le_of_lt Polynomial.degree_C_le (by exact_mod_cast Nat.succ_pos l.length)
    · rw [Polynomial.degree_mul, Polynomial.degree_X]
      calc (1 : WithBot ℕ) + (coeffsPoly l).degree
          < 1 + (l.length : WithBot ℕ) := WithBot.add_lt_add_left (by simp) ih
        _ = (((a :: l).length : ℕ) : WithBot ℕ) := by
            simp [List.length_cons, add_comm]

theorem degree_sharePoly (s : GF) (l : List GF) :
    (sharePoly s l).degree < ((l.length + 1 : ℕ) : WithBot ℕ) := by
  refine lt_of_le_of_lt (Polynomial.degree_add_le _ _) (max_lt ?_ ?_)
  · exact lt_of_le_of_lt Polynomial.degree_C_le (by exact_mod_cast Nat.succ_pos l.length)
  · rw [Polynomial.degree_mul, Polynomial.degree_X]
    calc (1 : WithBot ℕ) + (coeffsPoly l).degree
        < 1 + (l.length : WithBot ℕ) := WithBot.add_lt_add_left (by simp) (degree_coeffsPoly l)
      _ = ((l.length + 1 : ℕ) : WithBot ℕ) := by push_cast; ring

theorem eval_basis_zero (I : Finset GF) (x : GF) :
    Polynomial.eval 0 (Lagrange.basis I id x) = ∏ y ∈ I.erase x, y / (y - x) := by
  simp only [Lagrange.basis]
  rw [Polynomial.eval_prod]
  refine Finset.prod_congr rfl fun y hy => ?_
  simp only [Lagrange.basisDivisor, id_eq, Polynomial.eval_mul, Polynomial.eval_C,
    Polynomial.eval_sub, Polynomial.eval_X]
  rw [div_eq_mul_inv, ← neg_sub x y, inv_neg]
  ring

/-- Core recovery lemma: Lagrange interpolation at `0` through more nodes than
the polynomial degree recovers the constant term, i.e. the secret byte. -/
theorem recover_polyEval (s : GF) (coeffs : List GF) (I : Finset GF)
    (h : coeffs.length < I.card) : recover I (polyEval s coeffs) = s := by
  have hdeg : (sharePoly s coeffs).degree < (I.card : WithBot ℕ) :=
    lt_of_lt_of_le (degree_sharePoly s coeffs) (by exact_mod_cast Nat.succ_le_of_lt h)
  have hinterp := Lagrange.eq_interpolate (v := id) (s := I)
    (f := sharePoly s coeffs) (Set.injOn_id _) hdeg
  have h0 := congrArg (Polynomial.eval 0) hinterp
  rw [Lagrange.interpolate_apply, Polynomial.eval_finset_sum] at h0
  simp only [Polynomial.eval_mul, Polynomial.eval_C, id_eq, eval_basis_zero] at h0
  have hl : (sharePoly s coeffs).eval 0 = s := by
    rw [eval_sharePoly]; simp [polyEval]
  calc recover I (polyEval s coeffs)
      = ∑ x ∈ I, (sharePoly s coeffs).eval x * ∏ y ∈ I.erase x, y / (y - x) := by
        unfold recover
        exact Finset.sum_congr rfl fun x _ => by rw [eval_sharePoly]
    _ = (sharePoly s coeffs).eval 0 := h0.symm
    _ = s := hl

theorem snd_of_mem_split {secret : List GF} {coeffs : List (List GF)} {n : ℕ}
    {p : GF × List GF} (hp : p ∈ split secret coeffs n) :
    p.2 = shareValue secret coeffs p.1 := by
  simp only [split, List.mem_map, List.mem_range] at hp
  obtain ⟨i, hi, rfl⟩ := hp
  rfl

theorem shareValue_getD (secret : List GF) (coeffs : List (List GF)) (x : GF)
    (k : ℕ) (hk : k < secret.length) (hlen : coeffs.length = secret.length) :
    (shareValue secret coeffs x).getD k 0
      = polyEval (secret.getD k 0) (coeffs.getD k []) x := by
  have hz : k < (secret.zip coeffs).length := by
    rw [List.length_zip, hlen]
    omega
  rw [shareValue, List.getD_eq_getElem _ _ (by simpa using hz), List.getElem_map,
    List.getElem_zip, List.getD_eq_getElem _ _ hk,
    List.getD_eq_getElem _ _ (show k < coeffs.length by omega)]

/-- Any selection of the produced shares is the image of its own index set
under the share-building map. -/
theorem sub_eq_image (secret : List GF) (coeffs : List (List GF)) (n : ℕ)
    (sub : Finset (GF × List GF)) (hsub : ∀ p ∈ sub, p ∈ split secret coeffs n) :
    sub = (sub.image Prod.fst).image (fun x => (x, shareValue secret coeffs x)) := by
  rw [Finset.image_image]
  symm
  calc sub.image ((fun x => (x, shareValue secret coeffs x)) ∘ Prod.fst)
      = sub.image id := Finset.image_congr (fun p hp => by
        have h2 := snd_of_mem_split (hsub p hp)
        exact Prod.ext rfl h2.symm)
    _ = sub := Finset.image_id

/-- One byte position of `combine`, rewritten as `recover` on the index set. -/
theorem combine_component (secret : List GF) (coeffs : List (List GF))
    (I : Finset GF) (k : ℕ) (hk : k < secret.length)
    (hlen : coeffs.length = secret.length) :
    (∑ p ∈ I.image (fun x => (x, shareValue secret coeffs x)),
        p.2.getD k 0 *
          ∏ q ∈ (I.image (fun x => (x, shareValue secret coeffs x))).erase p,
            q.1 / (q.1 - p.1))
      = recover I (polyEval (secret.getD k 0) (coeffs.getD k [])) := by
  have hg : Function.Injective (fun x : GF => (x, shareValue secret coeffs x)) :=
    fun a b h => congrArg Prod.fst h
  rw [Finset.sum_image (fun a _ b _ h => hg h)]
  unfold recover
  refine Finset.sum_congr rfl fun x hx => ?_
  have h1 : (shareValue secret coeffs x).getD k 0
      = polyEval (secret.getD k 0) (coeffs.getD k []) x :=
    shareValue_getD secret coeffs x k hk hlen
  rw [show ((fun x : GF => (x, shareValue secret coeffs x)) x).2.getD k 0
      = (shareValue secret coeffs x).getD k 0 from rfl, h1]
  congr 1
  rw [← Finset.image_erase hg I x, Finset.prod_image (fun a _ b _ h => hg h)]

/-- C1: for every 64-byte secret and every valid pair `(n, t)` accepted by
`splitChecked` (that is, `2 ≤ t ≤ n ≤ 255`), combining any subset of `t` or
more of the `n` produced shares reconstructs exactly the original secret. -/
theorem c1_split_combine_roundtrip
    (secret : List GF) (coeffs : List (List GF)) (n t : ℕ)
    (hsec : secret.length = 64)
    (hcoe : coeffs.length = secret.length)
    (hclen : ∀ c ∈ coeffs, c.length = t - 1)
    (out : List (GF × List GF))
    (hout : splitChecked secret coeffs n t = Except.ok out)
    (sub : Finset (GF × List GF))
    (hsub : ∀ p ∈ sub, p ∈ out)
    (hcard : t ≤ sub.card) :
    combine sub 64 = secret := by
  have hcond : 2 ≤ t ∧ t ≤ n ∧ n ≤ 255 := by
    by_contra hc
    simp [splitChecked, hc] at hout
  have hout' : split secret coeffs n = out := by
    simpa [splitChecked, hcond] using hout
  have hsub' : ∀ p ∈ sub, p ∈ split secret coeffs n := by
    intro p hp
    rw [hout']
    exact hsub p hp
  have himg := sub_eq_image secret coeffs n sub hsub'
  have hIcard : (sub.image Prod.fst).card = sub.card := by
    apply Finset.card_image_of_injOn
    intro p hp q hq hpq
    have h2p := snd_of_mem_split (hsub' p hp)
    have h2q := snd_of_mem_split (hsub' q hq)
    exact Prod.ext hpq (by rw [h2p, h2q, hpq])
  unfold combine
  apply List.ext_getElem
  · simpa using hsec.symm
  · intro k hk1 hk2
    have hk : k < secret.length := hk2
    simp only [List.getElem_map, List.getElem_range]
    conv_lhs => rw [himg]
    rw [combine_component secret coeffs (sub.image Prod.fst) k hk hcoe]
    have hkc : k < coeffs.length := by omega
    have hmem : coeffs.getD k [] ∈ coeffs := by
      rw [List.getD_eq_getElem _ _ hkc]
      exact List.getElem_mem hkc
    have hlt : (coeffs.getD k []).length < (sub.image Prod.fst).card := by
      rw [hclen _ hmem, hIcard]
      have := hcond.1
      omega
    rw [recover_polyEval _ _ _ hlt, List.getD_eq_getElem _ _ hk]

/-- Witness for C1: splitting the 64-byte all-`0xAA` secret with threshold 2
into 2 shares and recombining both of them yields back the secret. -/
theorem c1_split_combine_roundtrip_witness :
    combine ((split (List.replicate 64 (170 : GF)) (List.replicate 64 [7]) 2).toFinset) 64
      = List.replicate 64 (170 : GF) :=
  c1_split_combine_roundtrip (List.replicate 64 (170 : GF)) (List.replicate 64 [7]) 2 2
    (by simp) (by simp) (fun c hc => by simp [List.eq_of_mem_replicate hc])
    (split (List.replicate 64 (170 : GF)) (List.replicate 64 [7]) 2) rfl
    ((split (List.replicate 64 (170 : GF)) (List.replicate 64 [7]) 2).toFinset)
    (fun p hp => List.mem_toFinset.mp hp)
    (by decide)

/-!  ShareCoordinator: `ShareManagerService.retrieveAndCombineShares`
(`src/services/mpc/share-manager.service.ts`, lines 96-142).

The per-index fetch `kmsService.getPrivateKey` is an oracle
`avail : ℕ → Option ℕ` (`some v` when the share named `walletId-i` is
retrievable, `none` when the fetch throws); share values and failure messages
are abstracted to naturals/indices.  The final library call
`secrets.combine(retrievedShares)` is outside the repository, so the embedding
returns the list of retrieved shares the source would pass to it. -/

/-- Loop body of `retrieveAndCombineShares`: scan indices in order, stop once
`rc` successes are accumulated, record failures and continue otherwise. -/
def scanShares (avail : ℕ → Option ℕ) (rc : ℕ) :
    List ℕ → List ℕ → List ℕ → List ℕ × List ℕ
  | [], acc, errs => (acc, errs)
  | i :: rest, acc, errs =>
    if rc ≤ acc.length then (acc, errs)
    else
      match avail i with
      | some v => scanShares avail rc rest (acc ++ [v]) errs
      | none => scanShares avail rc rest acc (errs ++ [i])

inductive RetrieveError where
  | requestedBelowThreshold : RetrieveError
  | insufficientShares (got : ℕ) (failures : List ℕ) : RetrieveError
deriving DecidableEq

/-- JavaScript `sharesToRetrieve || threshold`: `undefined` and `0` are falsy. -/
def effectiveCount (threshold : ℕ) (sharesToRetrieve : Option ℕ) : ℕ :=
  match sharesToRetrieve with
  | none => threshold
  | some 0 => threshold
  | some (k + 1) => k + 1

/-- Outcome of the scan: the source throws when fewer than `threshold` shares
were retrieved, and otherwise passes the retrieved list to `secrets.combine`. -/
def retrieveResult (threshold : ℕ) (r : List ℕ × List ℕ) : Except RetrieveError (List ℕ) :=
  if r.1.length < threshold then
    Except.error (RetrieveError.insufficientShares r.1.length r.2)
  else Except.ok r.1

/-- Embedding of `ShareManagerService.retrieveAndCombineShares`: guard the requested count,
scan share indices `1..total` in ascending order accumulating successes and
failures, then fail with `insufficientShares` when fewer than `threshold`
successes were accumulated, else hand the retrieved shares to the combiner. -/
def retrieveAndCombineShares (threshold total : ℕ) (sharesToRetrieve : Option ℕ)
    (avail : ℕ → Option ℕ) : Except RetrieveError (List ℕ) :=
  if effectiveCount threshold sharesToRetrieve < threshold then
    Except.error RetrieveError.requestedBelowThreshold
  else
    retrieveResult threshold
      (scanShares avail (effectiveCount threshold sharesToRetrieve) (List.range' 1 total) [] [])

theorem effectiveCount_some (threshold k : ℕ) (hk : 1 ≤ k) :
    effectiveCount threshold (some k) = k := by
  cases k with
  | zero => omega
  | succ m => rfl

theorem scanShares_fst (avail : ℕ → Option ℕ) (rc : ℕ) (idxs : List ℕ) :
    ∀ acc errs : List ℕ, acc.length ≤ rc →
      (scanShares avail rc idxs acc errs).1
        = acc ++ (((idxs.filter fun i => (avail i).isSome).take (rc - acc.length)).map
            fun i => (avail i).getD 0) := by
  induction idxs with
  | nil => intro acc errs h; simp [scanShares]
  | cons i rest ih =>
    intro acc errs h
    simp only [scanShares]
    split
    · rename_i hstop
      have h0 : rc - acc.length = 0 := by omega
      simp [h0]
    · rename_i hstop
      split
      · rename_i v havail
        rw [ih (acc ++ [v]) errs (by simp; omega)]
        rw [List.filter_cons_of_pos (by simp [havail])]
        have h1 : rc - acc.length = (rc - (acc ++ [v]).length) + 1 := by simp; omega
        rw [h1, List.take_succ_cons, List.map_cons]
        simp [havail]
      · rename_i havail
        rw [ih acc (errs ++ [i]) h]
        rw [List.filter_cons_of_neg (by simp [havail])]

theorem scanShares_snd (avail : ℕ → Option ℕ) (rc : ℕ) (idxs : List ℕ) :
    ∀ acc errs : List ℕ,
      acc.length + (idxs.countP fun i => (avail i).isSome) < rc →
      (scanShares avail rc idxs acc errs).2
        = errs ++ idxs.filter fun i => (avail i).isNone := by
  induction idxs with
  | nil => intro acc errs h; simp [scanShares]
  | cons i rest ih =>
    intro acc errs h
    simp only [scanShares]
    split
    · rename_i hstop
      omega
    · rename_i hstop
      split
      · rename_i v havail
        have hc : (rest.countP fun i => (avail i).isSome) + 1
            = (i :: rest).countP fun i => (avail i).isSome := by
          rw [List.countP_cons_of_pos _ _ (by simp [havail])]
        rw [ih (acc ++ [v]) errs (by simp; omega)]
        rw [List.filter_cons_of_neg (by simp [havail])]
      · rename_i havail
        have hc : (rest.countP fun i => (avail i).isSome)
            = (i :: rest).countP fun i => (avail i).isSome := by
          rw [List.countP_cons_of_neg _ _ (by simp [havail])]
        rw [ih acc (errs ++ [i]) (by omega)]
        rw [List.filter_cons_of_pos (by simp [havail])]
        simp

/-- Taking a prefix of a contiguous index range is the shorter range. -/
theorem take_range_of_le (k : ℕ) : ∀ a n : ℕ, k ≤ n →
    (List.range' a n).take k = List.range' a k := by
  induction k with
  | zero => intro a n _; simp
  | succ k ih =>
    intro a n hk
    cases n with
    | zero => omega
    | succ m =>
      rw [List.range'_succ, List.range'_succ, List.take_succ_cons, ih (a + 1) m (by omega)]

/-- Full characterisation of the coordinator for an explicit requested count
`rc ≥ threshold`: it fails (collecting every failed index) exactly when fewer
than `threshold` of the `total` indices are retrievable, and otherwise returns
the values of the first `min rc available` retrievable indices in scan
order. -/
theorem retrieve_characterization (threshold total rc : ℕ) (avail : ℕ → Option ℕ)
    (h1 : 1 ≤ threshold) (h2 : threshold ≤ rc) :
    retrieveAndCombineShares threshold total (some rc) avail
      = if ((List.range' 1 total).countP fun i => (avail i).isSome) < threshold
        then Except.error (RetrieveError.insufficientShares
              ((List.range' 1 total).countP fun i => (avail i).isSome)
              ((List.range' 1 total).filter fun i => (avail i).isNone))
        else Except.ok ((((List.range' 1 total).filter fun i => (avail i).isSome).take rc).map
              fun i => (avail i).getD 0) := by
  have hrc : effectiveCount threshold (some rc) = rc := effectiveCount_some _ _ (by omega)
  unfold retrieveAndCombineShares
  rw [hrc, if_neg (by omega : ¬ rc < threshold)]
  unfold retrieveResult
  have hfst := scanShares_fst avail rc (List.range' 1 total) [] [] (by simp)
  simp only [List.nil_append, List.length_nil, Nat.sub_zero] at hfst
  have hflen : ((List.range' 1 total).filter fun i => (avail i).isSome).length
      = (List.range' 1 total).countP fun i => (avail i).isSome :=
    (List.countP_eq_length_filter _ _).symm
  have hlen : (scanShares avail rc (List.range' 1 total) [] []).1.length
      = min rc ((List.range' 1 total).countP fun i => (avail i).isSome) := by
    rw [hfst, List.length_map, List.length_take, hflen]
  by_cases hA : ((List.range' 1 total).countP fun i => (avail i).isSome) < threshold
  · rw [if_pos (by omega : (scanShares avail rc (List.range' 1 total) [] []).1.length < threshold),
      if_pos hA]
    have hsnd := scanShares_snd avail rc (List.range' 1 total) [] [] (by simp; omega)
    have hminA : min rc ((List.range' 1 total).countP fun i => (avail i).isSome)
        = (List.range' 1 total).countP fun i => (avail i).isSome := by omega
    rw [hlen, hsnd, hminA]
    simp
  · rw [if_neg (by omega : ¬ (scanShares avail rc (List.range' 1 total) [] []).1.length < threshold),
      if_neg hA]
    exact congrArg Except.ok hfst

/-- The default call (`sharesToRetrieve` omitted) equals requesting exactly
`threshold` shares. -/
theorem retrieve_default (threshold total : ℕ) (avail : ℕ → Option ℕ)
    (h1 : 1 ≤ threshold) :
    retrieveAndCombineShares threshold total none avail
      = retrieveAndCombineShares threshold total (some threshold) avail := by
  have h : effectiveCount threshold none = effectiveCount threshold (some threshold) := by
    rw [effectiveCount_some threshold threshold h1]
    rfl
  simp only [retrieveAndCombineShares, h]

/-- C3 counterexample: with threshold 2, total 3 and requested count
`needed = 3`, making only index 2 unavailable exhausts the scan with 2 < 3
successes, yet the call succeeds — the exhaustion check compares against the
threshold, not against `needed`, contradicting the claim that fewer than
`needed` successes fail with `InsufficientShares`. -/
theorem c3_counterexample :
    retrieveAndCombineShares 2 3 (some 3) (fun i => if i = 2 then none else some (10 * i))
      = Except.ok [10, 30] ∧
    ((List.range' 1 3).countP fun i =>
        ((fun i => if i = 2 then none else some (10 * i)) i : Option ℕ).isSome) = 2 :=
  ⟨rfl, rfl⟩

/-- C3 (amended): the coordinator scans share indices `1..total` in ascending
order, accumulates successes, stops fetching at `needed` successes (so with
every share available it fetches exactly the first `needed` indices), continues
past individual failures, and succeeds whenever at most `total - threshold`
indices are unavailable; however the exhaustion failure — `InsufficientShares`
carrying every per-index failure — occurs exactly when fewer than `threshold`
(not `needed`) successes exist among all `total` indices. -/
theorem c3_scan_policy (threshold total rc : ℕ) (avail : ℕ → Option ℕ)
    (h1 : 1 ≤ threshold) (h2 : threshold ≤ rc) (h3 : threshold ≤ total) :
    ((∀ i, 1 ≤ i → i ≤ total → (avail i).isSome) → rc ≤ total →
      retrieveAndCombineShares threshold total (some rc) avail
        = Except.ok ((List.range' 1 rc).map fun i => (avail i).getD 0)) ∧
    (((List.range' 1 total).countP fun i => (avail i).isNone) ≤ total - threshold →
      ∃ shares, retrieveAndCombineShares threshold total (some rc) avail
        = Except.ok shares) ∧
    (((List.range' 1 total).countP fun i => (avail i).isSome) < threshold →
      retrieveAndCombineShares threshold total (some rc) avail
        = Except.error (RetrieveError.insufficientShares
            ((List.range' 1 total).countP fun i => (avail i).isSome)
            ((List.range' 1 total).filter fun i => (avail i).isNone))) := by
  have hchar := retrieve_characterization threshold total rc avail h1 h2
  have hsum : total = ((List.range' 1 total).countP fun i => (avail i).isSome)
      + ((List.range' 1 total).countP fun i => (avail i).isNone) := by
    have h := List.length_eq_countP_add_countP (p := fun i => (avail i).isSome)
      (l := List.range' 1 total)
    have h2 : ((List.range' 1 total).countP fun a => ¬(avail a).isSome)
        = (List.range' 1 total).countP fun i => (avail i).isNone :=
      List.countP_congr fun a _ => by cases havail : avail a <;> simp
    rw [h2] at h
    simpa using h
  refine ⟨?_, ?_, ?_⟩
  · intro hall hrct
    have hfilter : (List.range' 1 total).filter (fun i => (avail i).isSome)
        = List.range' 1 total := by
      rw [List.filter_eq_self]
      intro a ha
      rw [List.mem_range'_1] at ha
      exact hall a ha.1 (by omega)
    have hcount : ((List.range' 1 total).countP fun i => (avail i).isSome) = total := by
      rw [List.countP_eq_length_filter, hfilter]
      simp
    rw [hchar, if_neg (by omega), hfilter, take_range_of_le rc 1 total hrct]
  · intro htol
    refine ⟨(((List.range' 1 total).filter fun i => (avail i).isSome).take rc).map
      fun i => (avail i).getD 0, ?_⟩
    rw [hchar, if_neg (by omega)]
  · intro hA
    rw [hchar, if_pos hA]

/-- Witness for C3 at a concrete instance: threshold 2 of 3 shares, all
available, requested count 2 — the first two indices are fetched. -/
theorem c3_scan_policy_witness :
    retrieveAndCombineShares 2 3 (some 2) (fun i => some (10 * i))
      = Except.ok [10, 20] := by
  have h := (c3_scan_policy 2 3 2 (fun i => some (10 * i)) (by norm_num)
    (by norm_num) (by norm_num)).1 (fun i _ _ => rfl) (by norm_num)
  simpa using h

/-- C4: when fewer than `threshold` of the stored shares are retrievable the
coordinator fails with `InsufficientShares` — reporting how many shares it got
and every failed index — and never hands a share set to the combiner, so no
(possibly wrong) secret is ever produced from fewer than `t` shares. -/
theorem c4_insufficient_shares (threshold total : ℕ) (avail : ℕ → Option ℕ)
    (h1 : 1 ≤ threshold)
    (hA : ((List.range' 1 total).countP fun i => (avail i).isSome) < threshold) :
    retrieveAndCombineShares threshold total none avail
      = Except.error (RetrieveError.insufficientShares
          ((List.range' 1 total).countP fun i => (avail i).isSome)
          ((List.range' 1 total).filter fun i => (avail i).isNone)) := by
  rw [retrieve_default threshold total avail h1,
    retrieve_characterization threshold total threshold avail h1 (le_refl _),
    if_pos hA]

/-- Witness for C4: threshold 2 of 3 with every share fetch failing. -/
theorem c4_insufficient_shares_witness :
    retrieveAndCombineShares 2 3 none (fun _ => none)
      = Except.error (RetrieveError.insufficientShares 0 [1, 2, 3]) :=
  (c4_insufficient_shares 2 3 (fun _ => none) (by norm_num) (by norm_num)).trans rfl

/-- C8: `split` fails with `InvalidThreshold` — and produces no shares —
whenever `t < 2`, `t > n`, or `n > 255`. -/
theorem c8_invalid_threshold (secret : List GF) (coeffs : List (List GF)) (n t : ℕ)
    (h : t < 2 ∨ n < t ∨ 255 < n) :
    splitChecked secret coeffs n t = Except.error SplitError.invalidThreshold := by
  unfold splitChecked
  rw [if_neg (by omega : ¬ (2 ≤ t ∧ t ≤ n ∧ n ≤ 255))]

/-- Witness for C8: threshold 1 is rejected. -/
theorem c8_invalid_threshold_witness :
    splitChecked [] [] 3 1 = Except.error SplitError.invalidThreshold :=
  c8_invalid_threshold [] [] 3 1 (Or.inl (by norm_num))

/-!  KeyVersionManager: the version ledger and its operations
(`src/services/rotation.service.ts` and the ledger-writing part of
`SigningService.generateWallet`, `src/services/signing.service.ts` lines
17-75).

`WalletVersionMetadata` mirrors `src/models/wallet-version.model.ts`; the
per-version map is a function `ℕ → Option VersionInfo` (a JavaScript object
keyed by version number).  Timestamps are naturals counted in days, so the
30-day grace period is `now + 30`; each service operation takes a single
`now`, standing for the `new Date()` calls it performs. -/

inductive VStatus where
  | active : VStatus
  | rotating : VStatus
  | deprecated : VStatus
  | deleted : VStatus
deriving DecidableEq

structure VersionInfo where
  publicKey : String
  status : VStatus
  createdAt : ℕ
  rotatedAt : Option ℕ
  expiresAt : Option ℕ
deriving DecidableEq

structure RotationEvent where
  fromVersion : ℕ
  toVersion : ℕ
  rotatedAt : ℕ
  reason : Option String
deriving DecidableEq

structure WalletVersionMetadata where
  walletId : String
  currentVersion : ℕ
  versions : ℕ → Option VersionInfo
  rotationHistory : List RotationEvent

/-- Ledger created by `SigningService.generateWallet`: version 1 active, empty
rotation history. -/
def initialLedger (walletId publicKey : String) (now : ℕ) : WalletVersionMetadata :=
  { walletId := walletId
    currentVersion := 1
    versions := fun v =>
      if v = 1 then some ⟨publicKey, VStatus.active, now, none, none⟩ else none
    rotationHistory := [] }

/-- Embedding of `RotationService.rotateWallet`, restricted to its effect on the ledger.
The source reads `versions[currentVersion].publicKey` (crashing when the entry
is missing, modelled as `none`), installs the freshly generated key as version
`current + 1` with status active, marks the previous version deprecated with
`rotatedAt = now` and `expiresAt = now + 30` (days), and appends one rotation
event; the updated ledger is stored as a single object. -/
def rotateWallet (md : WalletVersionMetadata) (now : ℕ) (newPublicKey : String)
    (reason : Option String) : Option WalletVersionMetadata :=
  match md.versions md.currentVersion with
  | none => none
  | some oldInfo =>
    some { walletId := md.walletId
           currentVersion := md.currentVersion + 1
           versions :=
             Function.update
               (Function.update md.versions (md.currentVersion + 1)
                 (some ⟨newPublicKey, VStatus.active, now, none, none⟩))
               md.currentVersion
               (some { oldInfo with
                       status := VStatus.deprecated
                       rotatedAt := some now
                       expiresAt := some (now + 30) })
           rotationHistory := md.rotationHistory
             ++ [⟨md.currentVersion, md.currentVersion + 1, now, reason⟩] }

/-- Embedding of `RotationService.deleteOldVersion`, restricted to its ledger effect: when
the requested version exists, set its status to deleted — with no check of the
current status or of `expiresAt`. -/
def deleteOldVersion (md : WalletVersionMetadata) (version : ℕ) :
    WalletVersionMetadata :=
  match md.versions version with
  | some info =>
    { md with versions :=
        Function.update md.versions version (some { info with status := VStatus.deleted }) }
  | none => md

/-- Full description of the ledger produced by `rotateWallet` from a ledger
with a unique active version (shared helper for the rotation claims). -/
theorem rotateWallet_spec (md : WalletVersionMetadata) (now : ℕ) (pub : String)
    (reason : Option String) (oldInfo : VersionInfo)
    (hcur : md.versions md.currentVersion = some oldInfo)
    (_hactive : oldInfo.status = VStatus.active)
    (huniq : ∀ v, v ≠ md.currentVersion → ∀ i, md.versions v = some i →
      i.status ≠ VStatus.active) :
    ∃ md', rotateWallet md now pub reason = some md' ∧
      md'.currentVersion = md.currentVersion + 1 ∧
      md'.versions (md.currentVersion + 1)
        = some ⟨pub, VStatus.active, now, none, none⟩ ∧
      (∀ v i, md'.versions v = some i → i.status = VStatus.active →
        v = md.currentVersion + 1) ∧
      md'.versions md.currentVersion
        = some { oldInfo with
                 status := VStatus.deprecated
                 rotatedAt := some now
                 expiresAt := some (now + 30) } ∧
      md'.rotationHistory = md.rotationHistory
        ++ [⟨md.currentVersion, md.currentVersion + 1, now, reason⟩] := by
  have h1 : md.currentVersion + 1 ≠ md.currentVersion := by omega
  refine ⟨_, show rotateWallet md now pub reason = some
      { walletId := md.walletId
        currentVersion := md.currentVersion + 1
        versions :=
          Function.update
            (Function.update md.versions (md.currentVersion + 1)
              (some ⟨pub, VStatus.active, now, none, none⟩))
            md.currentVersion
            (some { oldInfo with
                    status := VStatus.deprecated
                    rotatedAt := some now
                    expiresAt := some (now + 30) })
        rotationHistory := md.rotationHistory
          ++ [⟨md.currentVersion, md.currentVersion + 1, now, reason⟩] }
    from by simp only [rotateWallet, hcur], rfl, ?_, ?_, ?_, rfl⟩
  · simp only [Function.update_noteq h1, Function.update_same]
  · intro v i hv hi
    by_contra hne
    rcases eq_or_ne v md.currentVersion with h | h
    · subst h
      simp only [Function.update_same] at hv
      cases hv
      simp at hi
    · simp only [Function.update_noteq h, Function.update_noteq hne] at hv
      exact huniq v h i hv hi
  · simp only [Function.update_same]

/-- C2: rotating a wallet whose ledger has a unique active version `v` yields a
ledger where `v + 1` is the unique active version, `v` is deprecated with
`rotatedAt = now` and `expiresAt = rotatedAt + 30` days, and the rotation
history is exactly one `v → v + 1` entry longer. -/
theorem c2_rotate_wallet (md : WalletVersionMetadata) (now : ℕ) (pub : String)
    (reason : Option String) (oldInfo : VersionInfo)
    (hcur : md.versions md.currentVersion = some oldInfo)
    (hactive : oldInfo.status = VStatus.active)
    (huniq : ∀ v, v ≠ md.currentVersion → ∀ i, md.versions v = some i →
      i.status ≠ VStatus.active) :
    ∃ md', rotateWallet md now pub reason = some md' ∧
      md'.currentVersion = md.currentVersion + 1 ∧
      md'.versions (md.currentVersion + 1)
        = some ⟨pub, VStatus.active, now, none, none⟩ ∧
      (∀ v i, md'.versions v = some i → i.status = VStatus.active →
        v = md.currentVersion + 1) ∧
      md'.versions md.currentVersion
        = some { oldInfo with
                 status := VStatus.deprecated
                 rotatedAt := some now
                 expiresAt := some (now + 30) } ∧
      md'.rotationHistory = md.rotationHistory
        ++ [⟨md.currentVersion, md.currentVersion + 1, now, reason⟩] :=
  rotateWallet_spec md now pub reason oldInfo hcur hactive huniq

/-- Witness for C2: rotating a freshly created single-version ledger. -/
theorem c2_rotate_wallet_witness :
    ∃ md', rotateWallet (initialLedger "w" "pk" 0) 5 "pk2" none = some md' ∧
      md'.currentVersion = (initialLedger "w" "pk" 0).currentVersion + 1 ∧
      md'.versions ((initialLedger "w" "pk" 0).currentVersion + 1)
        = some ⟨"pk2", VStatus.active, 5, none, none⟩ ∧
      (∀ v i, md'.versions v = some i → i.status = VStatus.active →
        v = (initialLedger "w" "pk" 0).currentVersion + 1) ∧
      md'.versions (initialLedger "w" "pk" 0).currentVersion
        = some ⟨"pk", VStatus.deprecated, 0, some 5, some 35⟩ ∧
      md'.rotationHistory = (initialLedger "w" "pk" 0).rotationHistory
        ++ [⟨(initialLedger "w" "pk" 0).currentVersion,
             (initialLedger "w" "pk" 0).currentVersion + 1, 5, none⟩] :=
  c2_rotate_wallet (initialLedger "w" "pk" 0) 5 "pk2" none
    ⟨"pk", VStatus.active, 0, none, none⟩ rfl rfl
    (fun v hv i hi => by
      have hv1 : v ≠ 1 := hv
      have h2 : (if v = 1 then some (⟨"pk", VStatus.active, 0, none, none⟩ : VersionInfo)
          else none) = some i := hi
      rw [if_neg hv1] at h2
      cases h2)

/-- Exactly one version of the ledger has status active. -/
def ExactlyOneActive (md : WalletVersionMetadata) : Prop :=
  ∃ v, (∃ i, md.versions v = some i ∧ i.status = VStatus.active) ∧
    ∀ w, (∃ j, md.versions w = some j ∧ j.status = VStatus.active) → w = v

/-- The current version is active and no other version is. -/
def ActiveInv (md : WalletVersionMetadata) : Prop :=
  (∃ i, md.versions md.currentVersion = some i ∧ i.status = VStatus.active) ∧
  ∀ v, v ≠ md.currentVersion → ∀ i, md.versions v = some i →
    i.status ≠ VStatus.active

/-- Ledger states reachable by the create / rotate / sweep-delete operations,
with the delete step restricted to versions that are not currently active
(the amendment claim C6 needs: the source's `deleteOldVersion` itself performs
no such check). -/
inductive ReachableLedger : WalletVersionMetadata → Prop where
  | create (walletId publicKey : String) (now : ℕ) :
      ReachableLedger (initialLedger walletId publicKey now)
  | rotate (md md' : WalletVersionMetadata) (now : ℕ) (pub : String)
      (reason : Option String) : ReachableLedger md →
      rotateWallet md now pub reason = some md' → ReachableLedger md'
  | sweep (md : WalletVersionMetadata) (version : ℕ) : ReachableLedger md →
      (∀ i, md.versions version = some i → i.status ≠ VStatus.active) →
      ReachableLedger (deleteOldVersion md version)

theorem activeInv_initial (walletId publicKey : String) (now : ℕ) :
    ActiveInv (initialLedger walletId publicKey now) := by
  constructor
  · exact ⟨⟨publicKey, VStatus.active, now, none, none⟩, by simp [initialLedger], rfl⟩
  · intro v hv i hi
    have hv1 : v ≠ 1 := hv
    simp only [initialLedger, if_neg hv1] at hi
    cases hi

theorem activeInv_rotate (md md' : WalletVersionMetadata) (now : ℕ) (pub : String)
    (reason : Option String) (hinv : ActiveInv md)
    (heq : rotateWallet md now pub reason = some md') : ActiveInv md' := by
  obtain ⟨⟨a, ha, hact⟩, huniq⟩ := hinv
  obtain ⟨md'', heq', hcv, hnew, huniq', hold, hhist⟩ :=
    rotateWallet_spec md now pub reason a ha hact huniq
  have hsame : md' = md'' := by
    rw [heq] at heq'
    exact Option.some.inj heq'
  subst hsame
  constructor
  · rw [hcv, hnew]
    exact ⟨_, rfl, rfl⟩
  · intro v hv i hi hact'
    exact hv (by rw [hcv]; exact huniq' v i hi hact')

theorem activeInv_sweep (md : WalletVersionMetadata) (version : ℕ)
    (hinv : ActiveInv md)
    (hguard : ∀ i, md.versions version = some i → i.status ≠ VStatus.active) :
    ActiveInv (deleteOldVersion md version) := by
  obtain ⟨⟨a, ha, hact⟩, huniq⟩ := hinv
  cases hv : md.versions version with
  | none =>
    constructor
    · exact ⟨a, by simp only [deleteOldVersion, hv]; exact ha, hact⟩
    · intro v hne i hi
      simp only [deleteOldVersion, hv] at hi hne
      exact huniq v hne i hi
  | some info =>
    have hvne : version ≠ md.currentVersion := by
      intro h
      rw [h, ha] at hv
      cases hv
      exact hguard a (h ▸ ha) hact
    constructor
    · refine ⟨a, ?_, hact⟩
      simp only [deleteOldVersion, hv]
      show Function.update md.versions version _ md.currentVersion = some a
      rw [Function.update_noteq (Ne.symm hvne)]
      exact ha
    · intro v hne i hi
      simp only [deleteOldVersion, hv] at hi hne
      rcases eq_or_ne v version with h | h
      · subst h
        rw [Function.update_same] at hi
        cases hi
        simp
      · rw [Function.update_noteq h] at hi
        exact huniq v hne i hi

theorem activeInv_reachable (md : WalletVersionMetadata)
    (h : ReachableLedger md) : ActiveInv md := by
  induction h with
  | create walletId publicKey now => exact activeInv_initial walletId publicKey now
  | rotate md md' now pub reason hr heq ih => exact activeInv_rotate md md' now pub reason ih heq
  | sweep md version hr hguard ih => exact activeInv_sweep md version ih hguard

/-- C6 counterexample: `deleteOldVersion` applied to the currently active
version flips an active record straight to deleted — the sweep/delete path
does not restrict itself to deprecated or deleted records — leaving a
reachable ledger with zero active versions. -/
theorem c6_counterexample :
    (initialLedger "w" "pk" 0).versions 1
      = some ⟨"pk", VStatus.active, 0, none, none⟩ ∧
    (deleteOldVersion (initialLedger "w" "pk" 0) 1).versions 1
      = some ⟨"pk", VStatus.deleted, 0, none, none⟩ := by
  constructor
  · rfl
  · show Function.update (initialLedger "w" "pk" 0).versions 1
        (some ⟨"pk", VStatus.deleted, 0, none, none⟩) 1 = _
    rw [Function.update_same]

/-- C6 (amended): along every sequence of create, rotate, and sweep/delete
operations in which the delete step is only ever applied to versions that are
not currently active (deprecated or deleted records, as the spec intends),
exactly one version of the ledger has status active at all times. -/
theorem c6_exactly_one_active (md : WalletVersionMetadata)
    (h : ReachableLedger md) : ExactlyOneActive md := by
  obtain ⟨⟨i, hi, hact⟩, huniq⟩ := activeInv_reachable md h
  refine ⟨md.currentVersion, ⟨i, hi, hact⟩, ?_⟩
  intro w ⟨j, hj, hjact⟩
  by_contra hne
  exact huniq w hne j hj hjact

/-- Witness for C6: the freshly created ledger is reachable and has exactly
one active version. -/
theorem c6_exactly_one_active_witness :
    ExactlyOneActive (initialLedger "w" "pk" 0) :=
  c6_exactly_one_active (initialLedger "w" "pk" 0)
    (ReachableLedger.create "w" "pk" 0)

/-!  Wallet creation: `SigningService.generateWallet`
(`src/services/signing.service.ts` lines 17-75) together with the store
operations it calls (`KMSService.storeVersionedPrivateKey`,
`storePublicKeyMetadata`, `storeWalletVersionMetadata`, all of which catch
`ResourceExistsException` and fall back to an update).  The ledger store is a
map from wallet id to its ledger. -/

abbrev Ledgers := String → Option WalletVersionMetadata

/-- Embedding of `KMSService.storeWalletVersionMetadata`: create the ledger secret, and on
`ResourceExistsException` overwrite it — an unconditional upsert. -/
def storeWalletVersionMetadata (st : Ledgers) (md : WalletVersionMetadata) : Ledgers :=
  Function.update st md.walletId (some md)

/-- Embedding of `SigningService.generateWallet`, restricted to its ledger effect: generate
a keypair, store the version-1 key and public-key metadata (both upserts,
omitted here), then upsert a fresh version-1-active ledger.  No step checks
whether the wallet already exists, so the function cannot fail on an existing
wallet. -/
def generateWallet (st : Ledgers) (walletId publicKey : String) (now : ℕ) :
    Except String (Ledgers × String) :=
  Except.ok (storeWalletVersionMetadata st (initialLedger walletId publicKey now), publicKey)

/-- C7 counterexample: generating a wallet whose id already has a version
ledger (here at version 5) does not fail — it succeeds and silently replaces
the existing ledger with a fresh version-1 ledger. -/
theorem c7_counterexample :
    (fun w => if w = "w" then some
        { walletId := "w"
          currentVersion := 5
          versions := fun v =>
            if v = 5 then some ⟨"oldpk", VStatus.active, 0, none, none⟩ else none
          rotationHistory := [] } else none : Ledgers) "w"
      = some
        { walletId := "w"
          currentVersion := 5
          versions := fun v =>
            if v = 5 then some ⟨"oldpk", VStatus.active, 0, none, none⟩ else none
          rotationHistory := [] } ∧
    ∃ st', generateWallet
        (fun w => if w = "w" then some
          { walletId := "w"
            currentVersion := 5
            versions := fun v =>
              if v = 5 then some ⟨"oldpk", VStatus.active, 0, none, none⟩ else none
            rotationHistory := [] } else none) "w" "pk" 7
      = Except.ok (st', "pk") ∧ st' "w" = some (initialLedger "w" "pk" 7) := by
  refine ⟨rfl, _, rfl, ?_⟩
  unfold storeWalletVersionMetadata
  rw [show (initialLedger "w" "pk" 7).walletId = "w" from rfl, Function.update_same]

/-- C7 (amended): `generateWallet` always succeeds; it establishes version 1
as active for the given wallet id, overwriting any existing ledger for that id
instead of failing, and leaves every other wallet's ledger unchanged. -/
theorem c7_generate_always_overwrites (st : Ledgers) (walletId publicKey : String)
    (now : ℕ) :
    generateWallet st walletId publicKey now
      = Except.ok (storeWalletVersionMetadata st (initialLedger walletId publicKey now),
          publicKey) ∧
    (storeWalletVersionMetadata st (initialLedger walletId publicKey now)) walletId
      = some (initialLedger walletId publicKey now) ∧
    (initialLedger walletId publicKey now).currentVersion = 1 ∧
    (initialLedger walletId publicKey now).versions 1
      = some ⟨publicKey, VStatus.active, now, none, none⟩ ∧
    ∀ w, w ≠ walletId →
      (storeWalletVersionMetadata st (initialLedger walletId publicKey now)) w = st w := by
  refine ⟨rfl, ?_, rfl, rfl, ?_⟩
  · unfold storeWalletVersionMetadata
    rw [show (initialLedger walletId publicKey now).walletId = walletId from rfl,
      Function.update_same]
  · intro w hw
    unfold storeWalletVersionMetadata
    rw [show (initialLedger walletId publicKey now).walletId = walletId from rfl,
      Function.update_noteq hw]

/-- Witness for C7 (amended) on a concrete store holding another wallet. -/
theorem c7_generate_always_overwrites_witness :
    generateWallet (fun _ => none) "w" "pk" 7
      = Except.ok (storeWalletVersionMetadata (fun _ => none) (initialLedger "w" "pk" 7),
          "pk") ∧
    (storeWalletVersionMetadata (fun _ => none) (initialLedger "w" "pk" 7)) "w"
      = some (initialLedger "w" "pk" 7) ∧
    (initialLedger "w" "pk" 7).currentVersion = 1 ∧
    (initialLedger "w" "pk" 7).versions 1
      = some ⟨"pk", VStatus.active, 7, none, none⟩ ∧
    ∀ w, w ≠ "w" →
      (storeWalletVersionMetadata (fun _ => none) (initialLedger "w" "pk" 7)) w
        = (fun _ => none : Ledgers) w :=
  c7_generate_always_overwrites (fun _ => none) "w" "pk" 7

/-!  SigningOrchestrator: `MPCSigningService.signMessageMPC`
(`src/services/mpc/mpc-signing.service.ts` lines 79-119) and
`SigningService.signMessage` (`src/services/signing.service.ts` lines 81-121).

The crypto primitives are oracle arguments: `reconstruct` stands for
`retrieveAndCombineShares` (respectively `getVersionedPrivateKey`), and
`derivePub` for `nacl.sign.keyPair.fromSecretKey`, which throws (modelled as
`none`) unless its argument is a 64-byte buffer.  The outcome records, next to
the returned value, whether the local key-material buffer was allocated and
whether it was overwritten with zeros before the operation exited.  The source
zeroes the buffer (`privateKey.fill(0)`; `keypair.secretKey.fill(0)`) only on
the straight-line success path after signing — there is no `try`/`finally` —
so an exception thrown after reconstruction leaves the buffer intact. -/

structure MPCSignOutcome where
  result : Except String (List ℕ × List ℕ)
  keyBufferAllocated : Bool
  keyBufferZeroed : Bool

/-- Embedding of `MPCSigningService.signMessageMPC`: reconstruct the key from shares,
derive the public key, sign, then zero the buffer and return
`(signature, publicKey)`.  Exit paths: reconstruction failure (no buffer ever
exists), derivation failure (buffer allocated, exception propagates before any
`fill(0)` runs), success (buffer zeroed). -/
def signMessageMPC (reconstruct : Except String (List ℕ))
    (derivePub : List ℕ → Option (List ℕ))
    (signBytes : List ℕ → List ℕ → List ℕ)
    (message : List ℕ) : MPCSignOutcome :=
  match reconstruct with
  | Except.error e => ⟨Except.error e, false, false⟩
  | Except.ok key =>
    match derivePub key with
    | none => ⟨Except.error "bad secret key size", true, false⟩
    | some pub => ⟨Except.ok (signBytes key message, pub), true, true⟩

/-- C5 (the code violates it): a signing operation in which share
reconstruction succeeds but yields a buffer `nacl` rejects (here 63 bytes —
e.g. one corrupted share value making `secrets.combine` return a hex string of
the wrong length) exits by exception with the key-material buffer allocated
and never overwritten: the zeroing runs only on the success path, not on every
exit path as the claim requires. -/
theorem c5_zeroization_gap :
    signMessageMPC (Except.ok (List.replicate 63 0))
        (fun key => if key.length = 64 then some key else none)
        (fun _ _ => []) [1, 2, 3]
      = ⟨Except.error "bad secret key size", true, false⟩ ∧
    signMessageMPC (Except.ok (List.replicate 64 0))
        (fun key => if key.length = 64 then some key else none)
        (fun _ _ => []) [1, 2, 3]
      = ⟨Except.ok ([], List.replicate 64 0), true, true⟩ := by
  constructor
  · show (match (if (List.replicate 63 (0 : ℕ)).length = 64 then
        some (List.replicate 63 (0 : ℕ)) else none : Option (List ℕ)) with
      | none => (⟨Except.error "bad secret key size", true, false⟩ : MPCSignOutcome)
      | some pub => ⟨Except.ok ([], pub), true, true⟩) = _
    rw [if_neg (by simp)]
  · show (match (if (List.replicate 64 (0 : ℕ)).length = 64 then
        some (List.replicate 64 (0 : ℕ)) else none : Option (List ℕ)) with
      | none => (⟨Except.error "bad secret key size", true, false⟩ : MPCSignOutcome)
      | some pub => ⟨Except.ok ([], pub), true, true⟩) = _
    rw [if_pos (by simp)]

/-!  PublicKeyCache: `MPCSigningService.getPublicKey`
(`src/services/mpc/mpc-signing.service.ts` lines 138-172) and
`SigningService.getPublicKey` (`src/services/signing.service.ts` lines
142-182).  The outcome records the returned value, how many times the
key-material reconstruction path ran, and the cache entry written back. -/

structure PubMeta where
  publicKey : String
  walletType : String
deriving DecidableEq

structure PubKeyOutcome where
  result : Except String String
  reconstructCalls : ℕ
  backfill : Option PubMeta

/-- Embedding of `MPCSigningService.getPublicKey`: try the metadata entry first and return
it without touching shares; on a miss, reconstruct the key from shares, derive
the public key, store the metadata entry for next time, zero the key and
return the derived public key. -/
def getPublicKeyMPC (metaLookup : Except String PubMeta)
    (reconstruct : Except String String)
    (derivePub : String → Option String) : PubKeyOutcome :=
  match metaLookup with
  | Except.ok m => ⟨Except.ok m.publicKey, 0, none⟩
  | Except.error _ =>
    match reconstruct with
    | Except.error e => ⟨Except.error e, 1, none⟩
    | Except.ok keyHex =>
      match derivePub keyHex with
      | none => ⟨Except.error "bad secret key size", 1, none⟩
      | some pub => ⟨Except.ok ("0x" ++ pub), 1, some ⟨"0x" ++ pub, "mpc"⟩⟩

/-- Version used by `SigningService.signMessage` and `getPublicKey`: the
ledger's current version, or 1 when no ledger exists. -/
def resolveVersion (md : Option WalletVersionMetadata) : ℕ :=
  match md with
  | some m => m.currentVersion
  | none => 1

/-- Embedding of `SigningService.getPublicKey`: resolve the active version, try the
metadata entry of the versioned wallet id, and on a miss fetch the versioned
private key, derive, backfill the metadata entry and return. -/
def getPublicKeyStandard (md : Option WalletVersionMetadata)
    (metaAt : ℕ → Except String PubMeta)
    (keyAt : ℕ → Except String String)
    (derivePub : String → Option String) : PubKeyOutcome :=
  match metaAt (resolveVersion md) with
  | Except.ok m => ⟨Except.ok m.publicKey, 0, none⟩
  | Except.error _ =>
    match keyAt (resolveVersion md) with
    | Except.error e => ⟨Except.error e, 1, none⟩
    | Except.ok keyHex =>
      match derivePub keyHex with
      | none => ⟨Except.error "bad secret key size", 1, none⟩
      | some pub => ⟨Except.ok ("0x" ++ pub), 1, some ⟨"0x" ++ pub, "standard"⟩⟩

/-- C9: in both services, when a public-key cache entry exists for the
resolved version, `getPublicKey` returns it with zero reconstruction calls and
no write; on a cold miss it runs reconstruction exactly once, derives the
public key, backfills the cache entry, and returns that public key. -/
theorem c9_public_key_cache
    (m : PubMeta) (e e' : String) (keyHex pub : String)
    (dp : String → Option String) (hdp : dp keyHex = some pub)
    (md : Option WalletVersionMetadata)
    (metaHit : ℕ → Except String PubMeta)
    (hmetaHit : metaHit (resolveVersion md) = Except.ok m)
    (metaMiss : ℕ → Except String PubMeta)
    (hmetaMiss : metaMiss (resolveVersion md) = Except.error e')
    (keyAt : ℕ → Except String String)
    (hkeyAt : keyAt (resolveVersion md) = Except.ok keyHex) :
    (∀ reconstruct, getPublicKeyMPC (Except.ok m) reconstruct dp
      = ⟨Except.ok m.publicKey, 0, none⟩) ∧
    getPublicKeyMPC (Except.error e) (Except.ok keyHex) dp
      = ⟨Except.ok ("0x" ++ pub), 1, some ⟨"0x" ++ pub, "mpc"⟩⟩ ∧
    getPublicKeyStandard md metaHit keyAt dp
      = ⟨Except.ok m.publicKey, 0, none⟩ ∧
    getPublicKeyStandard md metaMiss keyAt dp
      = ⟨Except.ok ("0x" ++ pub), 1, some ⟨"0x" ++ pub, "standard"⟩⟩ := by
  refine ⟨fun reconstruct => rfl, ?_, ?_, ?_⟩
  · simp only [getPublicKeyMPC, hdp]
  · simp only [getPublicKeyStandard, hmetaHit]
  · simp only [getPublicKeyStandard, hmetaMiss, hkeyAt, hdp]

/-- Witness for C9 at concrete oracles. -/
theorem c9_public_key_cache_witness :
    (∀ reconstruct, getPublicKeyMPC (Except.ok ⟨"0xabc", "mpc"⟩) reconstruct
        (fun k => if k = "key" then some "abc" else none)
      = ⟨Except.ok "0xabc", 0, none⟩) ∧
    getPublicKeyMPC (Except.error "miss") (Except.ok "key")
        (fun k => if k = "key" then some "abc" else none)
      = ⟨Except.ok ("0x" ++ "abc"), 1, some ⟨"0x" ++ "abc", "mpc"⟩⟩ ∧
    getPublicKeyStandard none (fun _ => Except.ok ⟨"0xabc", "mpc"⟩)
        (fun _ => Except.ok "key") (fun k => if k = "key" then some "abc" else none)
      = ⟨Except.ok "0xabc", 0, none⟩ ∧
    getPublicKeyStandard none (fun _ => Except.error "miss")
        (fun _ => Except.ok "key") (fun k => if k = "key" then some "abc" else none)
      = ⟨Except.ok ("0x" ++ "abc"), 1, some ⟨"0x" ++ "abc", "standard"⟩⟩ :=
  c9_public_key_cache ⟨"0xabc", "mpc"⟩ "miss" "miss" "key" "abc"
    (fun k => if k = "key" then some "abc" else none) (by simp)
    none (fun _ => Except.ok ⟨"0xabc", "mpc"⟩) rfl
    (fun _ => Except.error "miss") rfl
    (fun _ => Except.ok "key") rfl

inductive SignError where
  | versionNotFound (version : ℕ) : SignError
  | walletNotFound : SignError
  | cryptoFailure : SignError
deriving DecidableEq

/-- Embedding of `SigningService.signMessage`, restricted to version resolution and key
lookup: resolve the version from the ledger (1 when no ledger exists), then
read only the versioned key record `walletId-vN` — the legacy unversioned
record is never consulted, so there is no `legacyKey` argument. -/
def signMessage (md : Option WalletVersionMetadata)
    (versionedKey : ℕ → Option String)
    (derivePub : String → Option String)
    (signWith : String → String → String)
    (message : String) : Except SignError (String × String) :=
  match versionedKey (resolveVersion md) with
  | none => Except.error (SignError.versionNotFound (resolveVersion md))
  | some keyHex =>
    match derivePub keyHex with
    | none => Except.error SignError.cryptoFailure
    | some pub => Except.ok (signWith keyHex message, pub)

/-- Embedding of `RotationService.getActiveVersion`: the ledger's current version; for a
wallet with no ledger, fall back to the existence of the legacy unversioned
key record and resolve to version 1, else fail with wallet-not-found. -/
def getActiveVersion (md : Option WalletVersionMetadata)
    (legacyKey : Option String) : Except SignError ℕ :=
  match md with
  | some m => Except.ok m.currentVersion
  | none =>
    match legacyKey with
    | some _ => Except.ok 1
    | none => Except.error SignError.walletNotFound

/-- C10: for a wallet with no version ledger, `signMessage` resolves the
version to 1 and reads only the versioned record `walletId-v1`; when the key
material exists only under the legacy unversioned name, signing fails with a
version-not-found error even though `getActiveVersion` resolves the same
wallet to version 1 through its legacy fallback. -/
theorem c10_legacy_version_gap (versionedKey : ℕ → Option String)
    (legacy : String) (dp : String → Option String)
    (sw : String → String → String) (msg : String)
    (hv1 : versionedKey 1 = none) :
    signMessage none versionedKey dp sw msg
      = Except.error (SignError.versionNotFound 1) ∧
    getActiveVersion none (some legacy) = Except.ok 1 := by
  constructor
  · simp only [signMessage, resolveVersion, hv1]
  · rfl

/-- Witness for C10: a store holding only the legacy unversioned key. -/
theorem c10_legacy_version_gap_witness :
    signMessage none (fun _ => none) (fun _ => none) (fun _ _ => "") "m"
      = Except.error (SignError.versionNotFound 1) ∧
    getActiveVersion none (some "legacykey") = Except.ok 1 :=
  c10_legacy_version_gap (fun _ => none) "legacykey" (fun _ => none)
    (fun _ _ => "") "m" rfl

end KMS
